import Mathlib

/-!
Shallow embedding of the `garrison_engine` chess engine (src/main.rs).

The Rust `HashMap<Coordinate, Piece>` is modelled as an association list
`List (Coordinate × Piece)`; `HashMap::get` is first-match lookup,
`HashMap::remove` erases the key, `HashMap::insert` overwrites.  Machine
integers (`i8`) are modelled as `Int`; the `as u8` / `as i8` casts in
`Coordinate::new`, `Move::alg` and `parse_alg` are modelled with explicit
`% 256` wrapping.  `Result<_, ()>` is modelled as `Option`, `none` being
the `Err(())` case.  `&mut self` methods are explicit state passing:
`make_move` returns the updated board on success and `none` (no new
state, hence no mutation) on failure.
-/

set_option linter.unusedVariables false

structure Coordinate where
  file : Int
  rank : Int
deriving DecidableEq, Repr

inductive Color where
  | White
  | Black
deriving DecidableEq, Repr

inductive PieceType where
  | Pawn
  | Knight
  | Bishop
  | Rook
  | Queen
  | King
deriving DecidableEq, Repr

structure Piece where
  piece_type : PieceType
  color : Color
  doubled_last_turn : Bool
  has_moved : Bool
deriving DecidableEq, Repr

/-- `from` and `to` are reserved tokens here, so the Rust fields `Move::from`
and `Move::to` are `from_` and `to_`. -/
structure Move where
  from_ : Coordinate
  to_ : Coordinate
  capture : Bool
  piece_type : PieceType
deriving DecidableEq, Repr

/-- A `char as u8` cast: truncate the code point to 8 bits. -/
def u8ofChar (c : Char) : Nat := c.toNat % 256

/-- A `u8 as i8` cast: two's-complement reinterpretation. -/
def i8ofU8 (n : Nat) : Int := if n < 128 then (n : Int) else (n : Int) - 256

/-- An `i8 as u8` cast: two's-complement reinterpretation. -/
def u8ofI8 (n : Int) : Nat := (n % 256).toNat

/-- The file number computed by `(c as u8 - 96) as i8` (wrapping `u8` subtraction,
then reinterpretation as `i8`), as in `Coordinate::new` and `parse_alg`. -/
def fileOf (c : Char) : Int := i8ofU8 ((u8ofChar c + 160) % 256)

/-- `Coordinate::new(f, r)` — no validation of either axis. -/
def Coordinate.new (f : Char) (r : Int) : Coordinate :=
  { file := fileOf f, rank := r }

/-- The piece map: the Rust `HashMap<Coordinate, Piece>`. -/
abbrev PieceMap := List (Coordinate × Piece)

/-- `HashMap::get`: first entry with the given key. -/
def pget : PieceMap → Coordinate → Option Piece
  | [], _ => none
  | (k, v) :: rest, c => if k = c then some v else pget rest c

/-- `HashMap::remove`: drop the entry with the given key. -/
def premove : PieceMap → Coordinate → PieceMap
  | [], _ => []
  | (k, v) :: rest, c => if k = c then premove rest c else (k, v) :: premove rest c

/-- `HashMap::insert`: overwrite any entry at the key. -/
def pinsert (k : Coordinate) (v : Piece) (l : PieceMap) : PieceMap :=
  (k, v) :: premove l k

structure Board where
  pieces : PieceMap
  turn_color : Color
  moves : List Move
deriving DecidableEq, Repr

/-- The pawn direction chosen in the `Pawn` arm of `legal_moves`. -/
def pawnDir (c : Color) : Int :=
  match c with
  | .White => 1
  | .Black => -1

/-- The knight offsets, in the order the Rust `for` loop visits them. -/
def knightOffsets : List (Int × Int) :=
  [(-2, -1), (-1, -2), (-2, 1), (-1, 2), (2, 1), (1, 2), (2, -1), (1, -2)]

/-- One iteration of the knight's offset loop in `legal_moves`: the move (if
any) pushed for the offset `o` of a knight standing on `c`. -/
def knightArm (b : Board) (c : Coordinate) (o : Int × Int) : List Move :=
  match pget b.pieces { file := c.file + o.1, rank := c.rank + o.2 } with
  | some piece =>
      if 0 < c.file + o.1 ∧ c.file + o.1 < 9 ∧ 0 < c.rank + o.2 ∧ c.rank + o.2 < 9 ∧
          piece.color ≠ b.turn_color then
        [{ from_ := c, to_ := { file := c.file + o.1, rank := c.rank + o.2 },
           capture := true, piece_type := PieceType.Knight }]
      else []
  | none =>
      if 0 < c.file + o.1 ∧ c.file + o.1 < 9 ∧ 0 < c.rank + o.2 ∧ c.rank + o.2 < 9 then
        [{ from_ := c, to_ := { file := c.file + o.1, rank := c.rank + o.2 },
           capture := false, piece_type := PieceType.Knight }]
      else []

/-- The moves `legal_moves` pushes for one `(coordinate, piece)` entry of the
map (the body of its `for p in self.pieces.iter().filter(...)` loop). -/
def pieceMoves (b : Board) (c : Coordinate) (p : Piece) : List Move :=
  match p.piece_type with
  | PieceType.Pawn =>
      let dir := pawnDir p.color
      let up1 : Coordinate := { file := c.file, rank := c.rank + dir }
      let up2 : Coordinate := { file := up1.file, rank := up1.rank + dir }
      (if pget b.pieces up1 = none then
        [{ from_ := c, to_ := up1, capture := false, piece_type := PieceType.Pawn }]
      else []) ++
      (if p.has_moved = false ∧ pget b.pieces up2 = none then
        [{ from_ := c, to_ := up2, capture := false, piece_type := PieceType.Pawn }]
      else [])
  | PieceType.Knight => knightOffsets.flatMap (knightArm b c)
  | _ => []

/-- `Board::legal_moves`. -/
def legal_moves (b : Board) : List Move :=
  (b.pieces.filter (fun p => decide (p.2.color = b.turn_color))).flatMap
    (fun p => pieceMoves b p.1 p.2)

/-- `Board::make_move`.  `none` is the `Err(())` (`IllegalMove`) result; on
failure no new board is produced, modelling "no mutation".  The inner `none`
branch models the (unreachable) `unwrap` on the origin square. -/
def make_move (b : Board) (mov : Move) : Option Board :=
  if mov ∈ legal_moves b then
    match pget b.pieces mov.from_ with
    | some p0 =>
        let p1 : Piece := { p0 with has_moved := true }
        let p2 : Piece :=
          if p1.piece_type = PieceType.Pawn ∧ (mov.to_.rank - mov.from_.rank).natAbs = 2 then
            { p1 with doubled_last_turn := true }
          else p1
        some { pieces := pinsert mov.to_ p2 (premove b.pieces mov.from_),
               turn_color := if b.turn_color = Color.White then Color.Black else Color.White,
               moves := b.moves ++ [mov] }
    | none => none
  else
    none

/-- The piece letter written by `Move::alg`. -/
def pieceLetter (t : PieceType) : List Char :=
  match t with
  | .Pawn => []
  | .Knight => ['N']
  | .Bishop => ['B']
  | .Rook => ['R']
  | .Queen => ['Q']
  | .King => ['K']

/-- Decimal digits of a natural number, fuel-driven so that it is structural
(the fuel `n + 1` always suffices since `n / 10 < n` for `n ≥ 10`). -/
def natDigitsAux : Nat → Nat → List Char → List Char
  | 0, _, acc => acc
  | fuel + 1, n, acc =>
      if n < 10 then Char.ofNat (48 + n) :: acc
      else natDigitsAux fuel (n / 10) (Char.ofNat (48 + n % 10) :: acc)

/-- Decimal digits of a natural number (Rust's `Display` for integers). -/
def natDigits (n : Nat) : List Char := natDigitsAux (n + 1) n []

/-- Rust `Display` for a signed integer. -/
def intChars (n : Int) : List Char :=
  if n < 0 then '-' :: natDigits (-n).toNat else natDigits n.toNat

/-- The destination-file character `(file as u8 + 96) as char` of `Move::alg`
(wrapping `u8` addition). -/
def fileCharOf (f : Int) : Char := Char.ofNat ((u8ofI8 f + 96) % 256)

/-- `Move::alg`, as a list of characters. -/
def Move.alg (m : Move) : List Char :=
  pieceLetter m.piece_type ++ (if m.capture then ['x'] else []) ++
    [fileCharOf m.to_.file] ++ intChars m.to_.rank

/-- `String::from(c).parse::<i8>()` on the single character `c`: succeeds
exactly on a decimal digit. -/
def charDigit (c : Char) : Option Int :=
  if 48 ≤ c.toNat ∧ c.toNat ≤ 57 then some ((c.toNat : Int) - 48) else none

/-- `Board::parse_alg`, on the character list of the input string.  `none` is
the `Err(())` (`ParseError`) result. -/
def parse_alg (b : Board) (s : List Char) : Option Move :=
  match s with
  | [] => none
  | c :: rest =>
      if c = 'N' then
        some { from_ := Coordinate.new 'a' 2, to_ := Coordinate.new 'a' 3,
               capture := false, piece_type := PieceType.Knight }
      else if c = 'B' then
        some { from_ := Coordinate.new 'a' 2, to_ := Coordinate.new 'a' 3,
               capture := false, piece_type := PieceType.Bishop }
      else if c = 'R' then
        some { from_ := Coordinate.new 'a' 2, to_ := Coordinate.new 'a' 3,
               capture := false, piece_type := PieceType.Rook }
      else if c = 'Q' then
        some { from_ := Coordinate.new 'a' 2, to_ := Coordinate.new 'a' 3,
               capture := false, piece_type := PieceType.Queen }
      else if c = 'K' then
        some { from_ := Coordinate.new 'a' 2, to_ := Coordinate.new 'a' 3,
               capture := false, piece_type := PieceType.King }
      else
        match b.pieces.find? (fun p =>
            decide (p.2.color = b.turn_color) && decide (p.2.piece_type = PieceType.Pawn) &&
              decide (p.1.file = fileOf c)) with
        | none => none
        | some pn =>
            match rest with
            | [] => none
            | c2 :: _ =>
                match charDigit c2 with
                | none => none
                | some n =>
                    some { from_ := pn.1, to_ := Coordinate.new c n,
                           capture := false, piece_type := PieceType.Pawn }

/-- The piece placement built by `Board::new`, one `HashMap::insert` per
piece, in the source's insertion order. -/
def startPieces : PieceMap :=
  ([Color.White, Color.Black]).foldl (fun acc c =>
    let pawn_rank : Int := match c with | .White => 2 | .Black => 7
    let other_rank : Int := match c with | .White => 1 | .Black => 8
    let acc1 := (List.range 8).foldl
      (fun a i => pinsert { file := (i : Int) + 1, rank := pawn_rank }
        { piece_type := PieceType.Pawn, color := c,
          doubled_last_turn := false, has_moved := false } a) acc
    let acc2 := ([1, 8] : List Int).foldl
      (fun a f => pinsert { file := f, rank := other_rank }
        { piece_type := PieceType.Rook, color := c,
          doubled_last_turn := false, has_moved := false } a) acc1
    let acc3 := ([2, 7] : List Int).foldl
      (fun a f => pinsert { file := f, rank := other_rank }
        { piece_type := PieceType.Knight, color := c,
          doubled_last_turn := false, has_moved := false } a) acc2
    let acc4 := ([3, 6] : List Int).foldl
      (fun a f => pinsert { file := f, rank := other_rank }
        { piece_type := PieceType.Bishop, color := c,
          doubled_last_turn := false, has_moved := false } a) acc3
    let acc5 := pinsert { file := 4, rank := other_rank }
      { piece_type := PieceType.Queen, color := c,
        doubled_last_turn := false, has_moved := false } acc4
    pinsert { file := 5, rank := other_rank }
      { piece_type := PieceType.King, color := c,
        doubled_last_turn := false, has_moved := false } acc5) []

/-- `Board::new`: the standard starting position, White to move, empty
history. -/
def Board.new : Board :=
  { pieces := startPieces, turn_color := Color.White, moves := [] }

/-- Applying a list of moves in order; `none` as soon as one is rejected. -/
def apply_moves (b : Board) : List Move → Option Board
  | [] => some b
  | m :: ms =>
      match make_move b m with
      | some b2 => apply_moves b2 ms
      | none => none

/-! ## Lemmas about the association-list map -/

theorem pget_some_of_mem {l : PieceMap} {c : Coordinate} {p : Piece}
    (h : (c, p) ∈ l) : ∃ q, pget l c = some q := by
  induction l with
  | nil => cases h
  | cons e rest ih =>
      obtain ⟨k, v⟩ := e
      by_cases hk : k = c
      · exact ⟨v, by simp [pget, hk]⟩
      · rcases List.mem_cons.1 h with h1 | h1
        · exact absurd (congrArg Prod.fst h1).symm hk
        · obtain ⟨q, hq⟩ := ih h1
          exact ⟨q, by simp [pget, hk, hq]⟩

theorem mem_of_pget_eq_some {l : PieceMap} {c : Coordinate} {q : Piece}
    (h : pget l c = some q) : (c, q) ∈ l := by
  induction l with
  | nil => simp [pget] at h
  | cons e rest ih =>
      obtain ⟨k, v⟩ := e
      by_cases hk : k = c
      · subst hk
        simp [pget] at h
        subst h
        exact List.mem_cons_self _ _
      · simp [pget, hk] at h
        exact List.mem_cons_of_mem _ (ih h)

theorem mem_premove {l : PieceMap} {k c : Coordinate} {p : Piece} :
    (c, p) ∈ premove l k ↔ (c, p) ∈ l ∧ c ≠ k := by
  induction l with
  | nil => simp [premove]
  | cons e rest ih =>
      obtain ⟨k', v⟩ := e
      simp only [premove]
      by_cases hk : k' = k
      · rw [if_pos hk, ih]
        constructor
        · rintro ⟨h1, h2⟩
          exact ⟨List.mem_cons_of_mem _ h1, h2⟩
        · rintro ⟨hmem, h2⟩
          rcases List.mem_cons.1 hmem with heq | hmem'
          · have hc : c = k' := congrArg Prod.fst heq
            exact absurd (hc.trans hk) h2
          · exact ⟨hmem', h2⟩
      · rw [if_neg hk]
        constructor
        · intro hmem
          rcases List.mem_cons.1 hmem with heq | hmem'
          · have hc : c = k' := congrArg Prod.fst heq
            exact ⟨List.mem_cons.2 (Or.inl heq), fun hh => hk (hc ▸ hh)⟩
          · obtain ⟨h1, h2⟩ := ih.1 hmem'
            exact ⟨List.mem_cons_of_mem _ h1, h2⟩
        · rintro ⟨hmem, h2⟩
          rcases List.mem_cons.1 hmem with heq | hmem'
          · exact List.mem_cons.2 (Or.inl heq)
          · exact List.mem_cons_of_mem _ (ih.2 ⟨hmem', h2⟩)

theorem pget_premove_self (l : PieceMap) (k : Coordinate) :
    pget (premove l k) k = none := by
  induction l with
  | nil => simp [premove, pget]
  | cons e rest ih =>
      obtain ⟨k', v⟩ := e
      by_cases hk : k' = k
      · simpa [premove, hk] using ih
      · simp [premove, hk, pget, ih]

theorem pget_premove_ne {l : PieceMap} {k c : Coordinate} (h : c ≠ k) :
    pget (premove l k) c = pget l c := by
  induction l with
  | nil => rfl
  | cons e rest ih =>
      obtain ⟨k', v⟩ := e
      simp only [premove, pget]
      by_cases hk : k' = k
      · rw [if_pos hk]
        have hkc : ¬k' = c := fun hh => h ((hh.symm.trans hk))
        rw [if_neg hkc]
        exact ih
      · rw [if_neg hk]
        by_cases hkc : k' = c
        · simp only [pget, if_pos hkc]
        · simp only [pget, if_neg hkc]
          exact ih

/-! ## Shape lemmas about move generation -/

theorem mem_legal_moves {b : Board} {m : Move} :
    m ∈ legal_moves b ↔
      ∃ c p, (c, p) ∈ b.pieces ∧ p.color = b.turn_color ∧ m ∈ pieceMoves b c p := by
  simp only [legal_moves, List.mem_flatMap, List.mem_filter, decide_eq_true_eq]
  constructor
  · rintro ⟨⟨c, p⟩, ⟨hmem, hcol⟩, hm⟩
    exact ⟨c, p, hmem, hcol, hm⟩
  · rintro ⟨c, p, hmem, hcol, hm⟩
    exact ⟨(c, p), ⟨hmem, hcol⟩, hm⟩

theorem pawn_move_shape {b : Board} {c : Coordinate} {p : Piece} {m : Move}
    (hpt : p.piece_type = PieceType.Pawn) (h : m ∈ pieceMoves b c p) :
    m.from_ = c ∧ m.capture = false ∧ m.piece_type = PieceType.Pawn ∧
      m.to_.file = c.file ∧ pget b.pieces m.to_ = none ∧
      (m.to_.rank = c.rank + pawnDir p.color ∨
        m.to_.rank = c.rank + pawnDir p.color + pawnDir p.color) := by
  obtain ⟨pt, pc, pd, phm⟩ := p
  dsimp only at hpt
  subst hpt
  simp only [pieceMoves] at h
  rcases List.mem_append.1 h with h1 | h1
  · split_ifs at h1 with hc
    · rw [List.mem_singleton] at h1
      subst h1
      exact ⟨rfl, rfl, rfl, rfl, hc, Or.inl rfl⟩
    · exact absurd h1 (List.not_mem_nil m)
  · split_ifs at h1 with hc
    · rw [List.mem_singleton] at h1
      subst h1
      exact ⟨rfl, rfl, rfl, rfl, hc.2, Or.inr rfl⟩
    · exact absurd h1 (List.not_mem_nil m)

theorem knight_arm_shape {b : Board} {c : Coordinate} {o : Int × Int} {m : Move}
    (h : m ∈ knightArm b c o) :
    m.from_ = c ∧ m.piece_type = PieceType.Knight ∧
      m.to_ = { file := c.file + o.1, rank := c.rank + o.2 } ∧
      0 < m.to_.file ∧ m.to_.file < 9 ∧ 0 < m.to_.rank ∧ m.to_.rank < 9 := by
  unfold knightArm at h
  split at h
  · split_ifs at h with hc
    · rw [List.mem_singleton] at h
      subst h
      exact ⟨rfl, rfl, rfl, hc.1, hc.2.1, hc.2.2.1, hc.2.2.2.1⟩
    · exact absurd h (List.not_mem_nil m)
  · split_ifs at h with hc
    · rw [List.mem_singleton] at h
      subst h
      exact ⟨rfl, rfl, rfl, hc.1, hc.2.1, hc.2.2.1, hc.2.2.2⟩
    · exact absurd h (List.not_mem_nil m)

theorem knight_move_shape {b : Board} {c : Coordinate} {p : Piece} {m : Move}
    (hpt : p.piece_type = PieceType.Knight) (h : m ∈ pieceMoves b c p) :
    m.from_ = c ∧ m.piece_type = PieceType.Knight ∧
      0 < m.to_.file ∧ m.to_.file < 9 ∧ 0 < m.to_.rank ∧ m.to_.rank < 9 ∧
      m.to_.file ≠ c.file := by
  obtain ⟨pt, pc, pd, phm⟩ := p
  dsimp only at hpt
  subst hpt
  simp only [pieceMoves] at h
  rw [List.mem_flatMap] at h
  obtain ⟨o, ho, hm⟩ := h
  obtain ⟨hfrom, hty, hto, hb1, hb2, hb3, hb4⟩ := knight_arm_shape hm
  refine ⟨hfrom, hty, hb1, hb2, hb3, hb4, ?_⟩
  rw [hto]
  simp only [knightOffsets, List.mem_cons, List.not_mem_nil, or_false] at ho
  rcases ho with rfl | rfl | rfl | rfl | rfl | rfl | rfl | rfl <;> dsimp <;> omega

theorem pieceMoves_other {b : Board} {c : Coordinate} {p : Piece}
    (h1 : p.piece_type ≠ PieceType.Pawn) (h2 : p.piece_type ≠ PieceType.Knight) :
    pieceMoves b c p = [] := by
  obtain ⟨pt, pc, pd, phm⟩ := p
  cases pt
  · exact absurd rfl h1
  · exact absurd rfl h2
  all_goals rfl

theorem pieceMoves_from_eq {b : Board} {c : Coordinate} {p : Piece} {m : Move}
    (h : m ∈ pieceMoves b c p) : m.from_ = c ∧ m.piece_type = p.piece_type := by
  by_cases hp : p.piece_type = PieceType.Pawn
  · obtain ⟨h1, _, h3, _⟩ := pawn_move_shape hp h
    exact ⟨h1, h3.trans hp.symm⟩
  · by_cases hn : p.piece_type = PieceType.Knight
    · obtain ⟨h1, h2, _⟩ := knight_move_shape hn h
      exact ⟨h1, h2.trans hn.symm⟩
    · rw [pieceMoves_other hp hn] at h
      exact absurd h (List.not_mem_nil m)

theorem legal_moves_from_occupied {b : Board} {m : Move} (h : m ∈ legal_moves b) :
    ∃ p, (m.from_, p) ∈ b.pieces ∧ p.color = b.turn_color ∧ p.piece_type = m.piece_type := by
  obtain ⟨c, p, hmem, hcol, hpm⟩ := mem_legal_moves.1 h
  obtain ⟨h1, h2⟩ := pieceMoves_from_eq hpm
  subst h1
  exact ⟨p, hmem, hcol, h2.symm⟩

theorem legal_moves_from_ne_to {b : Board} {m : Move} (h : m ∈ legal_moves b) :
    m.from_ ≠ m.to_ := by
  obtain ⟨c, p, hmem, hcol, hpm⟩ := mem_legal_moves.1 h
  by_cases hp : p.piece_type = PieceType.Pawn
  · obtain ⟨h1, _, _, _, _, hrank⟩ := pawn_move_shape hp hpm
    intro heq
    have hr := congrArg Coordinate.rank heq
    rw [h1] at hr
    cases hcc : p.color <;> rw [hcc] at hrank <;> simp only [pawnDir] at hrank <;> omega
  · by_cases hn : p.piece_type = PieceType.Knight
    · obtain ⟨h1, _, _, _, _, _, hfile⟩ := knight_move_shape hn hpm
      intro heq
      have hf := congrArg Coordinate.file heq
      rw [h1] at hf
      exact hfile hf.symm
    · rw [pieceMoves_other hp hn] at hpm
      exact absurd hpm (List.not_mem_nil m)

/-! ## Lemmas about move application -/

theorem make_move_some_elim {b : Board} {m : Move} {b' : Board}
    (h : make_move b m = some b') :
    m ∈ legal_moves b ∧
      ∃ p0 p2, pget b.pieces m.from_ = some p0 ∧
        p2.piece_type = p0.piece_type ∧ p2.color = p0.color ∧ p2.has_moved = true ∧
        (p2.doubled_last_turn = true ↔
          (p0.piece_type = PieceType.Pawn ∧ (m.to_.rank - m.from_.rank).natAbs = 2) ∨
            p0.doubled_last_turn = true) ∧
        b'.pieces = pinsert m.to_ p2 (premove b.pieces m.from_) ∧
        b'.turn_color = (if b.turn_color = Color.White then Color.Black else Color.White) ∧
        b'.moves = b.moves ++ [m] := by
  unfold make_move at h
  by_cases hm : m ∈ legal_moves b
  · rw [if_pos hm] at h
    refine ⟨hm, ?_⟩
    split at h
    · next p0 hp0 =>
        simp only [Option.some_inj] at h
        subst h
        refine ⟨p0,
          (if ({ p0 with has_moved := true } : Piece).piece_type = PieceType.Pawn ∧
              (m.to_.rank - m.from_.rank).natAbs = 2 then
            { ({ p0 with has_moved := true } : Piece) with doubled_last_turn := true }
          else { p0 with has_moved := true }),
          hp0, ?_, ?_, ?_, ?_, rfl, rfl, rfl⟩
        · split_ifs <;> rfl
        · split_ifs <;> rfl
        · split_ifs <;> rfl
        · split_ifs with hc
          · dsimp only at hc
            simp [hc]
          · dsimp only at hc
            simp [hc]
    · exact absurd h (by simp)
  · rw [if_neg hm] at h
    exact absurd h (by simp)

/-- C4: a candidate move not contained in the freshly recomputed legal-move
list is rejected (`none`, the `IllegalMove` error) by `make_move`; in this
functional embedding of `&mut self`, no successor board is produced, so the
position map, the turn color and the history are exactly those of the input
board (no partial mutation). -/
theorem make_move_illegal_rejected (b : Board) (m : Move)
    (h : m ∉ legal_moves b) : make_move b m = none := by
  unfold make_move
  rw [if_neg h]

theorem make_move_illegal_rejected_witness :
    (⟨⟨1, 1⟩, ⟨1, 2⟩, false, PieceType.Rook⟩ : Move) ∉ legal_moves Board.new ∧
      make_move Board.new ⟨⟨1, 1⟩, ⟨1, 2⟩, false, PieceType.Rook⟩ = none :=
  ⟨by decide, make_move_illegal_rejected _ _ (by decide)⟩

/-- C7: after a successful `make_move`, replaying the very same move value is
rejected with `IllegalMove`: the origin square was emptied (and the turn has
changed), so no generated move can start there. -/
theorem make_move_idempotent_rejecting (b b' : Board) (m : Move)
    (h : make_move b m = some b') : make_move b' m = none := by
  obtain ⟨hleg, p0, p2, hp0, _, _, _, _, hpieces, _, _⟩ := make_move_some_elim h
  have hne : m.from_ ≠ m.to_ := legal_moves_from_ne_to hleg
  have hnone : pget b'.pieces m.from_ = none := by
    rw [hpieces]
    unfold pinsert
    rw [pget, if_neg (fun hh => hne hh.symm), pget_premove_ne hne, pget_premove_self]
  have hnot : m ∉ legal_moves b' := by
    intro hmem
    obtain ⟨q, hq, _⟩ := legal_moves_from_occupied hmem
    obtain ⟨q', hq'⟩ := pget_some_of_mem hq
    rw [hnone] at hq'
    cases hq'
  unfold make_move
  rw [if_neg hnot]

theorem make_move_idempotent_rejecting_witness :
    make_move ({ pieces := [(⟨1, 2⟩, ⟨PieceType.Pawn, Color.White, false, false⟩)],
                 turn_color := Color.White, moves := [] } : Board)
        ⟨⟨1, 2⟩, ⟨1, 3⟩, false, PieceType.Pawn⟩ =
      some ({ pieces := [(⟨1, 3⟩, ⟨PieceType.Pawn, Color.White, false, true⟩)],
              turn_color := Color.Black,
              moves := [⟨⟨1, 2⟩, ⟨1, 3⟩, false, PieceType.Pawn⟩] } : Board) ∧
    make_move ({ pieces := [(⟨1, 3⟩, ⟨PieceType.Pawn, Color.White, false, true⟩)],
                 turn_color := Color.Black,
                 moves := [⟨⟨1, 2⟩, ⟨1, 3⟩, false, PieceType.Pawn⟩] } : Board)
        ⟨⟨1, 2⟩, ⟨1, 3⟩, false, PieceType.Pawn⟩ = none :=
  ⟨by decide,
    make_move_idempotent_rejecting
      ({ pieces := [(⟨1, 2⟩, ⟨PieceType.Pawn, Color.White, false, false⟩)],
         turn_color := Color.White, moves := [] } : Board)
      ({ pieces := [(⟨1, 3⟩, ⟨PieceType.Pawn, Color.White, false, true⟩)],
         turn_color := Color.Black,
         moves := [⟨⟨1, 2⟩, ⟨1, 3⟩, false, PieceType.Pawn⟩] } : Board)
      ⟨⟨1, 2⟩, ⟨1, 3⟩, false, PieceType.Pawn⟩ (by decide)⟩

theorem apply_moves_len (ms : List Move) : ∀ b0 b : Board,
    apply_moves b0 ms = some b → b.moves.length = b0.moves.length + ms.length := by
  induction ms with
  | nil =>
      intro b0 b h
      simp only [apply_moves, Option.some_inj] at h
      subst h
      simp
  | cons m ms ih =>
      intro b0 b h
      simp only [apply_moves] at h
      split at h
      · next b1 hm =>
          obtain ⟨_, _, _, _, _, _, _, _, _, _, hmv⟩ := make_move_some_elim hm
          have hlen := ih b1 b h
          rw [hlen, hmv]
          simp only [List.length_append, List.length_cons, List.length_nil]
          omega
      · cases h

theorem apply_moves_turn (ms : List Move) : ∀ b0 b : Board,
    apply_moves b0 ms = some b →
      b.turn_color = (if ms.length % 2 = 0 then b0.turn_color
        else if b0.turn_color = Color.White then Color.Black else Color.White) := by
  induction ms with
  | nil =>
      intro b0 b h
      simp only [apply_moves, Option.some_inj] at h
      subst h
      simp
  | cons m ms ih =>
      intro b0 b h
      simp only [apply_moves] at h
      split at h
      · next b1 hm =>
          obtain ⟨_, _, _, _, _, _, _, _, _, hturn, _⟩ := make_move_some_elim hm
          have h1 := ih b1 b h
          have hlen : (m :: ms).length = ms.length + 1 := rfl
          rw [hlen]
          by_cases hp : ms.length % 2 = 0
          · have hp2 : ¬((ms.length + 1) % 2 = 0) := by omega
            rw [h1, if_pos hp, if_neg hp2]
            exact hturn
          · have hp2 : (ms.length + 1) % 2 = 0 := by omega
            rw [h1, if_neg hp, if_pos hp2, hturn]
            rcases hb0 : b0.turn_color <;> simp [hb0]
      · cases h

/-- C8: starting from the initial board, after `N` successful `make_move`
calls the turn color is White iff `N` is even, and the history holds exactly
one appended entry per successful call (`N` entries). -/
theorem turn_alternation_and_history (ms : List Move) (b : Board)
    (h : apply_moves Board.new ms = some b) :
    (b.turn_color = Color.White ↔ ms.length % 2 = 0) ∧ b.moves.length = ms.length := by
  have h1 := apply_moves_turn ms Board.new b h
  have h2 := apply_moves_len ms Board.new b h
  constructor
  · rw [h1]
    by_cases hp : ms.length % 2 = 0
    · rw [if_pos hp]
      simp [Board.new, hp]
    · rw [if_neg hp]
      have hW : Board.new.turn_color = Color.White := rfl
      rw [hW]
      simp [hp]
  · rw [h2]
    simp [Board.new]

/-- The board reached from the initial position by the double pawn advance
e2-e4, used as a concrete input below. -/
def boardAfterE4 : Board :=
  (make_move Board.new ⟨⟨5, 2⟩, ⟨5, 4⟩, false, PieceType.Pawn⟩).getD Board.new

theorem turn_alternation_and_history_witness :
    apply_moves Board.new [⟨⟨5, 2⟩, ⟨5, 4⟩, false, PieceType.Pawn⟩] = some boardAfterE4 ∧
      (boardAfterE4.turn_color = Color.White ↔
        ([⟨⟨5, 2⟩, ⟨5, 4⟩, false, PieceType.Pawn⟩] : List Move).length % 2 = 0) ∧
      boardAfterE4.moves.length =
        ([⟨⟨5, 2⟩, ⟨5, 4⟩, false, PieceType.Pawn⟩] : List Move).length :=
  ⟨by decide,
    turn_alternation_and_history [⟨⟨5, 2⟩, ⟨5, 4⟩, false, PieceType.Pawn⟩] boardAfterE4
      (by decide)⟩

theorem pawn_up1_mem {b : Board} {c : Coordinate} {p : Piece}
    (hmem : (c, p) ∈ b.pieces) (hcol : p.color = b.turn_color)
    (hpt : p.piece_type = PieceType.Pawn)
    (he : pget b.pieces { file := c.file, rank := c.rank + pawnDir p.color } = none) :
    ({ from_ := c, to_ := { file := c.file, rank := c.rank + pawnDir p.color },
       capture := false, piece_type := PieceType.Pawn } : Move) ∈ legal_moves b := by
  rw [mem_legal_moves]
  refine ⟨c, p, hmem, hcol, ?_⟩
  obtain ⟨pt, pc, pd, phm⟩ := p
  dsimp only at hpt he ⊢
  subst hpt
  simp only [pieceMoves]
  apply List.mem_append.2
  left
  rw [if_pos he]
  exact List.mem_singleton.2 rfl

/-- C10: pawn destinations are not bounds-checked.  On any board where a
pawn of the side to move stands on its final rank (8 for White, 1 for
Black) and the square one rank further (off the board) is unoccupied in the
map, `legal_moves` produces a move whose destination rank lies outside
`[1, 8]`; knight destinations, by contrast, always satisfy the `[1, 8]`
bounds that only the knight arm checks. -/
theorem pawn_moves_unbounded (b : Board) (c : Coordinate) (p : Piece)
    (hmem : (c, p) ∈ b.pieces) (hcol : p.color = b.turn_color)
    (hpt : p.piece_type = PieceType.Pawn)
    (hrank : c.rank =
      (match b.turn_color with | Color.White => (8 : Int) | Color.Black => 1))
    (he : pget b.pieces { file := c.file, rank := c.rank + pawnDir b.turn_color } = none) :
    (∃ m ∈ legal_moves b, m.to_.rank < 1 ∨ 8 < m.to_.rank) ∧
      ∀ m ∈ legal_moves b, m.piece_type = PieceType.Knight →
        1 ≤ m.to_.file ∧ m.to_.file ≤ 8 ∧ 1 ≤ m.to_.rank ∧ m.to_.rank ≤ 8 := by
  constructor
  · have hdir : pawnDir p.color = pawnDir b.turn_color := by rw [hcol]
    refine ⟨_, pawn_up1_mem hmem hcol hpt (by rw [hdir]; exact he), ?_⟩
    dsimp only
    rw [hdir, hrank]
    rcases hb : b.turn_color <;> simp only [pawnDir] <;> omega
  · intro m hm hty
    obtain ⟨cm, pm, _, _, hpm⟩ := mem_legal_moves.1 hm
    by_cases hp : pm.piece_type = PieceType.Pawn
    · obtain ⟨_, _, hty2, _⟩ := pawn_move_shape hp hpm
      rw [hty] at hty2
      cases hty2
    · by_cases hn : pm.piece_type = PieceType.Knight
      · obtain ⟨_, _, h1, h2, h3, h4, _⟩ := knight_move_shape hn hpm
        omega
      · rw [pieceMoves_other hp hn] at hpm
        exact absurd hpm (List.not_mem_nil m)

/-- A board with a single White pawn already standing on rank 8. -/
def edgePawnBoard : Board :=
  { pieces := [(⟨1, 8⟩, ⟨PieceType.Pawn, Color.White, false, true⟩)],
    turn_color := Color.White, moves := [] }

theorem pawn_moves_unbounded_witness :
    (⟨1, 8⟩, (⟨PieceType.Pawn, Color.White, false, true⟩ : Piece)) ∈ edgePawnBoard.pieces ∧
      ((∃ m ∈ legal_moves edgePawnBoard, m.to_.rank < 1 ∨ 8 < m.to_.rank) ∧
        ∀ m ∈ legal_moves edgePawnBoard, m.piece_type = PieceType.Knight →
          1 ≤ m.to_.file ∧ m.to_.file ≤ 8 ∧ 1 ≤ m.to_.rank ∧ m.to_.rank ≤ 8) :=
  ⟨by decide,
    pawn_moves_unbounded edgePawnBoard ⟨1, 8⟩ ⟨PieceType.Pawn, Color.White, false, true⟩
      (by decide) (by decide) (by decide) (by decide) (by decide)⟩

/-- C5: on the initial board, `legal_moves` yields exactly the 16 White pawn
moves (one- and two-square advances on each file) and the 4 knight moves
b1-a3, b1-c3, g1-f3, g1-h3, and nothing else. -/
theorem initial_legal_moves_exact :
    legal_moves Board.new =
      [⟨⟨7, 1⟩, ⟨6, 3⟩, false, PieceType.Knight⟩, ⟨⟨7, 1⟩, ⟨8, 3⟩, false, PieceType.Knight⟩,
       ⟨⟨2, 1⟩, ⟨1, 3⟩, false, PieceType.Knight⟩, ⟨⟨2, 1⟩, ⟨3, 3⟩, false, PieceType.Knight⟩,
       ⟨⟨8, 2⟩, ⟨8, 3⟩, false, PieceType.Pawn⟩, ⟨⟨8, 2⟩, ⟨8, 4⟩, false, PieceType.Pawn⟩,
       ⟨⟨7, 2⟩, ⟨7, 3⟩, false, PieceType.Pawn⟩, ⟨⟨7, 2⟩, ⟨7, 4⟩, false, PieceType.Pawn⟩,
       ⟨⟨6, 2⟩, ⟨6, 3⟩, false, PieceType.Pawn⟩, ⟨⟨6, 2⟩, ⟨6, 4⟩, false, PieceType.Pawn⟩,
       ⟨⟨5, 2⟩, ⟨5, 3⟩, false, PieceType.Pawn⟩, ⟨⟨5, 2⟩, ⟨5, 4⟩, false, PieceType.Pawn⟩,
       ⟨⟨4, 2⟩, ⟨4, 3⟩, false, PieceType.Pawn⟩, ⟨⟨4, 2⟩, ⟨4, 4⟩, false, PieceType.Pawn⟩,
       ⟨⟨3, 2⟩, ⟨3, 3⟩, false, PieceType.Pawn⟩, ⟨⟨3, 2⟩, ⟨3, 4⟩, false, PieceType.Pawn⟩,
       ⟨⟨2, 2⟩, ⟨2, 3⟩, false, PieceType.Pawn⟩, ⟨⟨2, 2⟩, ⟨2, 4⟩, false, PieceType.Pawn⟩,
       ⟨⟨1, 2⟩, ⟨1, 3⟩, false, PieceType.Pawn⟩, ⟨⟨1, 2⟩, ⟨1, 4⟩, false, PieceType.Pawn⟩] := by
  decide

/-- C9: whenever the input's first character is one of N, B, R, Q, K,
`parse_alg` succeeds with the hardcoded move a2-a3 (only the piece type is
taken from the letter), regardless of the board and of the remaining
characters. -/
theorem parse_alg_piece_letter_hardcoded (b : Board) (rest : List Char) :
    parse_alg b ('N' :: rest) = some ⟨⟨1, 2⟩, ⟨1, 3⟩, false, PieceType.Knight⟩ ∧
      parse_alg b ('B' :: rest) = some ⟨⟨1, 2⟩, ⟨1, 3⟩, false, PieceType.Bishop⟩ ∧
      parse_alg b ('R' :: rest) = some ⟨⟨1, 2⟩, ⟨1, 3⟩, false, PieceType.Rook⟩ ∧
      parse_alg b ('Q' :: rest) = some ⟨⟨1, 2⟩, ⟨1, 3⟩, false, PieceType.Queen⟩ ∧
      parse_alg b ('K' :: rest) = some ⟨⟨1, 2⟩, ⟨1, 3⟩, false, PieceType.King⟩ := by
  refine ⟨?_, ?_, ?_, ?_, ?_⟩ <;> rfl

/-- A board with a White pawn on e2 and a Black pawn on f3, one file right
and one rank forward — a diagonal-capture position. -/
def diagBoard : Board :=
  { pieces := [(⟨5, 2⟩, ⟨PieceType.Pawn, Color.White, false, false⟩),
               (⟨6, 3⟩, ⟨PieceType.Pawn, Color.Black, false, false⟩)],
    turn_color := Color.White, moves := [] }

/-- C1 counterexample: on `diagBoard`, f3 is occupied by a Black piece
diagonally forward of the White pawn on e2, yet `legal_moves` generates no
move to f3 at all — the claimed diagonal capture is never produced. -/
theorem pawn_diagonal_capture_cex :
    pget diagBoard.pieces ⟨6, 3⟩ = some ⟨PieceType.Pawn, Color.Black, false, false⟩ ∧
      (legal_moves diagBoard).filter (fun m => decide (m.to_ = ⟨6, 3⟩)) = [] := by
  decide

/-- C1 amended: `legal_moves` generates no pawn captures whatsoever: every
generated pawn move stays on its own file, carries `capture = false`, and
targets a square that is unoccupied in the position map. -/
theorem pawn_moves_never_capture (b : Board) (m : Move)
    (hm : m ∈ legal_moves b) (hp : m.piece_type = PieceType.Pawn) :
    m.capture = false ∧ m.to_.file = m.from_.file ∧ pget b.pieces m.to_ = none := by
  obtain ⟨c, p, hmem, hcol, hpm⟩ := mem_legal_moves.1 hm
  by_cases hpp : p.piece_type = PieceType.Pawn
  · obtain ⟨h1, h2, _, h4, h5, _⟩ := pawn_move_shape hpp hpm
    exact ⟨h2, by rw [h1]; exact h4, h5⟩
  · by_cases hn : p.piece_type = PieceType.Knight
    · obtain ⟨_, hty, _⟩ := knight_move_shape hn hpm
      rw [hp] at hty
      cases hty
    · rw [pieceMoves_other hpp hn] at hpm
      exact absurd hpm (List.not_mem_nil m)

theorem pawn_moves_never_capture_witness :
    (⟨⟨1, 2⟩, ⟨1, 3⟩, false, PieceType.Pawn⟩ : Move) ∈ legal_moves Board.new ∧
      ((⟨⟨1, 2⟩, ⟨1, 3⟩, false, PieceType.Pawn⟩ : Move).capture = false ∧
        (⟨⟨1, 2⟩, ⟨1, 3⟩, false, PieceType.Pawn⟩ : Move).to_.file =
          (⟨⟨1, 2⟩, ⟨1, 3⟩, false, PieceType.Pawn⟩ : Move).from_.file ∧
        pget Board.new.pieces ⟨1, 3⟩ = none) :=
  ⟨by decide, pawn_moves_never_capture Board.new _ (by decide) (by decide)⟩

/-- C2 counterexample: after 1. e2-e4 e7-e5 (two successful `make_move`
calls, the second being the opponent's reply), two pieces on the board carry
`doubled_last_turn = true`, not zero — the flag is never cleared board-wide. -/
theorem doubled_flag_not_cleared_cex :
    (apply_moves Board.new
        [⟨⟨5, 2⟩, ⟨5, 4⟩, false, PieceType.Pawn⟩,
         ⟨⟨5, 7⟩, ⟨5, 5⟩, false, PieceType.Pawn⟩]).map
      (fun b => (b.pieces.filter (fun e => e.2.doubled_last_turn)).length) = some 2 := by
  decide

/-- C2 amended: `make_move` performs no board-wide clearing of
`doubled_last_turn`: every entry of the position map standing on neither the
move's origin nor its destination is carried over unchanged (so a flag once
set persists through the opponent's reply), and after a two-square move of a
piece looked up as a Pawn, the destination square holds a piece with
`doubled_last_turn = true`. -/
theorem make_move_doubled_flag_persists (b b' : Board) (m : Move)
    (h : make_move b m = some b') :
    (∀ c p, (c, p) ∈ b.pieces → c ≠ m.from_ → c ≠ m.to_ → (c, p) ∈ b'.pieces) ∧
      (∀ p0, pget b.pieces m.from_ = some p0 → p0.piece_type = PieceType.Pawn →
        (m.to_.rank - m.from_.rank).natAbs = 2 →
        ∃ q, pget b'.pieces m.to_ = some q ∧ q.doubled_last_turn = true) := by
  obtain ⟨hleg, p0, p2, hp0, hty, hcolr, hmvd, hdbl, hpieces, hturn, hmoves⟩ :=
    make_move_some_elim h
  constructor
  · intro c p hmem hne1 hne2
    rw [hpieces]
    unfold pinsert
    exact List.mem_cons_of_mem _ (mem_premove.2 ⟨mem_premove.2 ⟨hmem, hne1⟩, hne2⟩)
  · intro q0 hq0 hqt hab
    rw [hp0] at hq0
    injection hq0 with hq0
    subst hq0
    refine ⟨p2, ?_, hdbl.2 (Or.inl ⟨hqt, hab⟩)⟩
    rw [hpieces]
    unfold pinsert
    simp [pget]

theorem make_move_doubled_flag_persists_witness :
    make_move ({ pieces := [(⟨1, 2⟩, ⟨PieceType.Pawn, Color.White, false, false⟩)],
                 turn_color := Color.White, moves := [] } : Board)
        ⟨⟨1, 2⟩, ⟨1, 4⟩, false, PieceType.Pawn⟩ =
      some ({ pieces := [(⟨1, 4⟩, ⟨PieceType.Pawn, Color.White, true, true⟩)],
              turn_color := Color.Black,
              moves := [⟨⟨1, 2⟩, ⟨1, 4⟩, false, PieceType.Pawn⟩] } : Board) ∧
    ((∀ c p, (c, p) ∈ ({ pieces := [(⟨1, 2⟩, ⟨PieceType.Pawn, Color.White, false, false⟩)],
                         turn_color := Color.White, moves := [] } : Board).pieces →
        c ≠ ⟨1, 2⟩ → c ≠ ⟨1, 4⟩ →
        (c, p) ∈ ({ pieces := [(⟨1, 4⟩, ⟨PieceType.Pawn, Color.White, true, true⟩)],
                    turn_color := Color.Black,
                    moves := [⟨⟨1, 2⟩, ⟨1, 4⟩, false, PieceType.Pawn⟩] } : Board).pieces) ∧
      (∀ p0, pget [(⟨1, 2⟩, ⟨PieceType.Pawn, Color.White, false, false⟩)] ⟨1, 2⟩ = some p0 →
        p0.piece_type = PieceType.Pawn → ((4 : Int) - 2).natAbs = 2 →
        ∃ q, pget [(⟨1, 4⟩, ⟨PieceType.Pawn, Color.White, true, true⟩)] ⟨1, 4⟩ = some q ∧
          q.doubled_last_turn = true)) :=
  ⟨by decide,
    make_move_doubled_flag_persists
      ({ pieces := [(⟨1, 2⟩, ⟨PieceType.Pawn, Color.White, false, false⟩)],
         turn_color := Color.White, moves := [] } : Board)
      ({ pieces := [(⟨1, 4⟩, ⟨PieceType.Pawn, Color.White, true, true⟩)],
         turn_color := Color.Black,
         moves := [⟨⟨1, 2⟩, ⟨1, 4⟩, false, PieceType.Pawn⟩] } : Board)
      ⟨⟨1, 2⟩, ⟨1, 4⟩, false, PieceType.Pawn⟩ (by decide)⟩

/-- C3 counterexample: `Coordinate::new` applied to the out-of-range input
('j', 9) succeeds and returns the out-of-range coordinate (10, 9): no
failure is possible (the function is total) and nothing is clamped, so
out-of-range coordinates are constructible. -/
theorem coordinate_new_no_validation_cex :
    Coordinate.new 'j' 9 = ⟨10, 9⟩ ∧
      ¬(1 ≤ (Coordinate.new 'j' 9).file ∧ (Coordinate.new 'j' 9).file ≤ 8) ∧
      ¬(1 ≤ (Coordinate.new 'j' 9).rank ∧ (Coordinate.new 'j' 9).rank ≤ 8) := by
  decide

/-- C3 amended: `Coordinate::new` is total and performs no validation: the
rank is passed through unchanged whatever it is, and for genuine file
letters a–h (codes 97–104) the computed file lands in [1, 8]; out-of-range
inputs also succeed, producing out-of-range coordinates. -/
theorem coordinate_new_in_range (f : Char) (r : Int)
    (h1 : 97 ≤ f.toNat) (h2 : f.toNat ≤ 104) :
    (Coordinate.new f r).rank = r ∧
      1 ≤ (Coordinate.new f r).file ∧ (Coordinate.new f r).file ≤ 8 := by
  refine ⟨rfl, ?_, ?_⟩ <;>
  · unfold Coordinate.new fileOf i8ofU8 u8ofChar
    dsimp only
    have hm : f.toNat % 256 = f.toNat := Nat.mod_eq_of_lt (by omega)
    rw [hm]
    have hm2 : (f.toNat + 160) % 256 = f.toNat - 96 := by omega
    rw [hm2]
    rw [if_pos (by omega : f.toNat - 96 < 128)]
    omega

theorem coordinate_new_in_range_witness :
    97 ≤ 'e'.toNat ∧ 'e'.toNat ≤ 104 ∧
      ((Coordinate.new 'e' 4).rank = 4 ∧
        1 ≤ (Coordinate.new 'e' 4).file ∧ (Coordinate.new 'e' 4).file ≤ 8) :=
  ⟨by decide, by decide, coordinate_new_in_range 'e' 4 (by decide) (by decide)⟩

/-- C6 counterexample: the knight move Nb1-a3 is generated on the initial
board, and it is the only generated move that formats as "Na3" (so
disambiguation is not required), yet re-parsing "Na3" yields the parser's
hardcoded a2-a3 move, not the original knight move. -/
theorem alg_parse_roundtrip_cex :
    (⟨⟨2, 1⟩, ⟨1, 3⟩, false, PieceType.Knight⟩ : Move) ∈ legal_moves Board.new ∧
      ((legal_moves Board.new).filter
        (fun m => decide (Move.alg m = ['N', 'a', '3']))).length = 1 ∧
      Move.alg ⟨⟨2, 1⟩, ⟨1, 3⟩, false, PieceType.Knight⟩ = ['N', 'a', '3'] ∧
      parse_alg Board.new (Move.alg ⟨⟨2, 1⟩, ⟨1, 3⟩, false, PieceType.Knight⟩) =
        some ⟨⟨1, 2⟩, ⟨1, 3⟩, false, PieceType.Knight⟩ ∧
      parse_alg Board.new (Move.alg ⟨⟨2, 1⟩, ⟨1, 3⟩, false, PieceType.Knight⟩) ≠
        some ⟨⟨2, 1⟩, ⟨1, 3⟩, false, PieceType.Knight⟩ := by
  decide

theorem intChars_single {n : Int} (h0 : 0 ≤ n) (h9 : n ≤ 9) :
    intChars n = [Char.ofNat (48 + n.toNat)] := by
  unfold intChars
  rw [if_neg (by omega : ¬n < 0)]
  show natDigitsAux (n.toNat + 1) n.toNat [] = _
  rw [natDigitsAux]
  rw [if_pos (by omega : n.toNat < 10)]

theorem fileOf_fileCharOf {f : Int} (h1 : 1 ≤ f) (h8 : f ≤ 8) :
    fileOf (fileCharOf f) = f ∧
      fileCharOf f ≠ 'N' ∧ fileCharOf f ≠ 'B' ∧ fileCharOf f ≠ 'R' ∧
      fileCharOf f ≠ 'Q' ∧ fileCharOf f ≠ 'K' := by
  interval_cases f <;>
    exact ⟨by decide, by decide, by decide, by decide, by decide, by decide⟩

theorem charDigit_digit {n : Int} (h0 : 0 ≤ n) (h9 : n ≤ 9) :
    charDigit (Char.ofNat (48 + n.toNat)) = some n := by
  interval_cases n <;> decide

theorem alg_pawn {m : Move} (hp : m.piece_type = PieceType.Pawn)
    (hc : m.capture = false) (h0 : 0 ≤ m.to_.rank) (h9 : m.to_.rank ≤ 9) :
    Move.alg m = [fileCharOf m.to_.file, Char.ofNat (48 + m.to_.rank.toNat)] := by
  unfold Move.alg
  rw [hp, hc, intChars_single h0 h9]
  rfl

theorem parse_alg_pawn_char (b : Board) (c1 c2 : Char)
    (hN : c1 ≠ 'N') (hB : c1 ≠ 'B') (hR : c1 ≠ 'R') (hQ : c1 ≠ 'Q') (hK : c1 ≠ 'K')
    {e : Coordinate × Piece}
    (hfind : b.pieces.find? (fun p =>
        decide (p.2.color = b.turn_color) && decide (p.2.piece_type = PieceType.Pawn) &&
          decide (p.1.file = fileOf c1)) = some e)
    {n : Int} (hdig : charDigit c2 = some n) :
    parse_alg b [c1, c2] = some ⟨e.1, Coordinate.new c1 n, false, PieceType.Pawn⟩ := by
  unfold parse_alg
  dsimp only
  rw [if_neg hN, if_neg hB, if_neg hR, if_neg hQ, if_neg hK, hfind]
  dsimp only
  rw [hdig]

/-- C6 amended: the format-then-parse round-trip holds exactly for the pawn
moves produced by `legal_moves`, provided the moving side has at most one
pawn on the move's file (no disambiguation needed), the file lies in a–h and
the destination rank is a single decimal digit; for moves formatted with a
piece letter the parser returns its hardcoded move instead, as the
counterexample shows. -/
theorem alg_parse_roundtrip_pawn (b : Board) (m : Move)
    (hm : m ∈ legal_moves b) (hp : m.piece_type = PieceType.Pawn)
    (hf1 : 1 ≤ m.from_.file) (hf8 : m.from_.file ≤ 8)
    (hr0 : 0 ≤ m.to_.rank) (hr9 : m.to_.rank ≤ 9)
    (huniq : ∀ e ∈ b.pieces, e.2.color = b.turn_color →
      e.2.piece_type = PieceType.Pawn → e.1.file = m.from_.file → e.1 = m.from_) :
    parse_alg b (Move.alg m) = some m := by
  obtain ⟨c, p, hmem, hcol, hpm⟩ := mem_legal_moves.1 hm
  have hpt2 : m.piece_type = p.piece_type := (pieceMoves_from_eq hpm).2
  have hpp : p.piece_type = PieceType.Pawn := by rw [← hpt2]; exact hp
  obtain ⟨hfrom, hcap, _, hfile, hempty, _⟩ := pawn_move_shape hpp hpm
  have hfc : m.to_.file = m.from_.file := by rw [hfile, hfrom]
  have hf1' : 1 ≤ m.to_.file := by rw [hfc]; exact hf1
  have hf8' : m.to_.file ≤ 8 := by rw [hfc]; exact hf8
  obtain ⟨hof, hN, hB, hR, hQ, hK⟩ := fileOf_fileCharOf hf1' hf8'
  rw [alg_pawn hp hcap hr0 hr9]
  have hpred : (fun e : Coordinate × Piece =>
      decide (e.2.color = b.turn_color) && decide (e.2.piece_type = PieceType.Pawn) &&
        decide (e.1.file = fileOf (fileCharOf m.to_.file))) (c, p) = true := by
    simp only [Bool.and_eq_true, decide_eq_true_eq]
    refine ⟨⟨hcol, hpp⟩, ?_⟩
    rw [hof, hfc, hfrom]
  cases hfind : b.pieces.find? (fun e : Coordinate × Piece =>
      decide (e.2.color = b.turn_color) && decide (e.2.piece_type = PieceType.Pawn) &&
        decide (e.1.file = fileOf (fileCharOf m.to_.file))) with
  | none =>
      rw [List.find?_eq_none] at hfind
      exact absurd hpred (hfind (c, p) hmem)
  | some e =>
      have hpe := List.find?_some hfind
      have hme := List.mem_of_find?_eq_some hfind
      simp only [Bool.and_eq_true, decide_eq_true_eq] at hpe
      obtain ⟨⟨hec, het⟩, hef⟩ := hpe
      have hekey : e.1 = m.from_ := huniq e hme hec het ((hef.trans hof).trans hfc)
      have hres := parse_alg_pawn_char b (fileCharOf m.to_.file)
        (Char.ofNat (48 + m.to_.rank.toNat)) hN hB hR hQ hK hfind
        (charDigit_digit hr0 hr9)
      rw [hres, hekey]
      have hcoord : Coordinate.new (fileCharOf m.to_.file) m.to_.rank = m.to_ := by
        unfold Coordinate.new
        rw [hof]
      rw [hcoord]
      obtain ⟨mf, mt, mc, mp⟩ := m
      dsimp only at hp hcap ⊢
      rw [hp, hcap]

theorem alg_parse_roundtrip_pawn_witness :
    (⟨⟨1, 2⟩, ⟨1, 3⟩, false, PieceType.Pawn⟩ : Move) ∈ legal_moves Board.new ∧
      parse_alg Board.new (Move.alg ⟨⟨1, 2⟩, ⟨1, 3⟩, false, PieceType.Pawn⟩) =
        some ⟨⟨1, 2⟩, ⟨1, 3⟩, false, PieceType.Pawn⟩ :=
  ⟨by decide,
    alg_parse_roundtrip_pawn Board.new ⟨⟨1, 2⟩, ⟨1, 3⟩, false, PieceType.Pawn⟩
      (by decide) (by decide) (by decide) (by decide) (by decide) (by decide) (by decide)⟩
